import Mathlib

/-!
Verification of the content-extraction retry engine and the
selection/ranking engine of the AI-News-summarizer repository.

Timestamps are modelled as rational numbers of seconds (UTC epoch
offsets); datetime arithmetic in the source (timedelta minutes/hours)
becomes multiplication by 60 resp. 3600.  Float scores become exact
rationals.  Strings are ASCII in all inputs of interest, so Python
lower/strip/regex operations are modelled on ASCII characters.
-/

namespace NewsCore

/-- Time as rational seconds. -/
abbrev Time := ℚ

/-!
Executable arithmetic on ℚ.  The field operations that Batteries installs
on Rat are marked irreducible, which stops decide from evaluating them on
concrete inputs; the operations below compute through Rat.divInt, which
does reduce, and are proved equal to the ordinary operations so that the
general theorems can still use ordinary algebra.
-/

def qadd (a b : ℚ) : ℚ :=
  Rat.divInt (a.num * (b.den : ℤ) + b.num * (a.den : ℤ)) ((a.den : ℤ) * (b.den : ℤ))

def qsub (a b : ℚ) : ℚ :=
  Rat.divInt (a.num * (b.den : ℤ) - b.num * (a.den : ℤ)) ((a.den : ℤ) * (b.den : ℤ))

def qmul (a b : ℚ) : ℚ :=
  Rat.divInt (a.num * b.num) ((a.den : ℤ) * (b.den : ℤ))

def qdiv (a b : ℚ) : ℚ :=
  Rat.divInt (a.num * (b.den : ℤ)) ((a.den : ℤ) * b.num)

def qpow (a : ℚ) : Nat → ℚ
  | 0 => 1
  | n + 1 => qmul a (qpow a n)

/-- Python max of two values: the second only when strictly greater. -/
def qmax (a b : ℚ) : ℚ := if Rat.blt a b then b else a

/-- Row type mirroring the Article model of app/db/models.py.  Nullable
columns are Option, extraction_attempts has server default 0. -/
structure Article where
  id : Int
  source : String
  title : String
  url : String
  category : Option String
  published_at : Option Time
  scraped_at : Time
  content_text : Option String
  extraction_status : Option String
  extraction_attempts : Nat
  next_extract_at : Option Time
  importance_score : Option ℚ
  reason_selected : Option String
deriving DecidableEq, Repr

/-- SQL three-valued logic: comparisons against NULL yield unknown, and
a WHERE clause keeps a row only when the condition is tru. -/
inductive SqlBool
  | tru
  | fls
  | unk
deriving DecidableEq, Repr

def sqlOfBool (b : Bool) : SqlBool := if b then SqlBool.tru else SqlBool.fls

def sqlAnd : SqlBool → SqlBool → SqlBool
  | SqlBool.fls, _ => SqlBool.fls
  | _, SqlBool.fls => SqlBool.fls
  | SqlBool.tru, SqlBool.tru => SqlBool.tru
  | _, _ => SqlBool.unk

def sqlOr : SqlBool → SqlBool → SqlBool
  | SqlBool.tru, _ => SqlBool.tru
  | _, SqlBool.tru => SqlBool.tru
  | SqlBool.fls, SqlBool.fls => SqlBool.fls
  | _, _ => SqlBool.unk

/-- SQL equality of a nullable string column with a constant. -/
def sqlEqStr (x : Option String) (v : String) : SqlBool :=
  match x with
  | none => SqlBool.unk
  | some s => sqlOfBool (decide (s = v))

/-- SQL inequality of a nullable string column with a constant. -/
def sqlNeStr (x : Option String) (v : String) : SqlBool :=
  match x with
  | none => SqlBool.unk
  | some s => sqlOfBool (decide (s ≠ v))

/-- SQL comparison of a nullable timestamp column with a constant. -/
def sqlLeTime (x : Option Time) (t : Time) : SqlBool :=
  match x with
  | none => SqlBool.unk
  | some u => sqlOfBool (decide (u ≤ t))

/-- Skip list of app/services/extract_repo.py. -/
def SKIP_DOMAINS : List String :=
  ["wol.fm", "twitter.com", "x.com", "youtube.com", "reddit.com",
   "retool.com", "bostondynamics.com", "donotnotify.com", "minha.sh",
   "ronjeffries.com", "www.thebignewsletter.com"]

def MAX_EXTRACTION_ATTEMPTS : Nat := 3

/-- Characters recognised by Python str.strip and the regex class for
whitespace, restricted to ASCII. -/
def isPySpace (c : Char) : Bool :=
  c == ' ' || c == '\t' || c == '\n' || c == '\r' || c == '\x0b' || c == '\x0c'

def stripChars (l : List Char) : List Char :=
  ((l.dropWhile isPySpace).reverse.dropWhile isPySpace).reverse

/-- Python str.strip (ASCII whitespace). -/
def pyStrip (s : String) : String := String.mk (stripChars s.toList)

/-- Scan for the first occurrence of two consecutive slashes, returning
what follows. -/
def afterSlashes : List Char → Option (List Char)
  | [] => none
  | '/' :: '/' :: rest => some rest
  | _ :: rest => afterSlashes rest

/-- urlparse(url).netloc for URLs of the usual scheme://host/path shape:
the text after the first double slash, up to the next slash, question
mark or hash; empty when the URL has no double slash. -/
def netloc (url : String) : String :=
  match afterSlashes url.toList with
  | none => ""
  | some rest =>
      String.mk (rest.takeWhile (fun c => !(c == '/' || c == '?' || c == '#')))

/-- Pure validation tail of extract_article_text (extractor.py, steps 4
and 5): raw is the text produced by the fetch and parse pipeline (none
for any fetch, redirect or parse failure, which are nondeterministic
network effects).  A falsy (empty) text is rejected, the text is
stripped, and a stripped text shorter than min_length is rejected. -/
def extract_article_text (raw : Option String) (min_length : Nat := 100) :
    Option String :=
  match raw with
  | none => none
  | some t =>
    if t.length = 0 then none
    else
      let t2 := pyStrip t
      if t2.length < min_length then none else some t2

/-- Failure branch of the per-candidate loop of extract_missing_content
(extract_repo.py lines 112-126): n is the already incremented attempt
count; below the maximum a cooldown of 5 * 6 ^ (n - 1) minutes is
written, at the maximum the article is terminally failed and the
cooldown cleared. -/
def failStep (now : Time) (n : Nat) (a : Article) : Article :=
  if n < MAX_EXTRACTION_ATTEMPTS then
    { a with extraction_attempts := n,
             next_extract_at := some (qadd now (qmul (qmul 5 (qpow 6 (n - 1))) 60)) }
  else
    { a with extraction_attempts := n,
             extraction_status := some "failed",
             next_extract_at := none }

/-- Body of the per-candidate loop of extract_missing_content
(extract_repo.py lines 90-126) for one selected row; result is the text
returned by extract_article_text for the row URL.  A skip-listed domain
is marked skipped before the attempt counter is touched; otherwise the
counter is incremented and the success or failure branch runs. -/
def processArticle (now : Time) (result : Option String) (a : Article) : Article :=
  if netloc a.url ∈ SKIP_DOMAINS then
    { a with extraction_status := some "skipped" }
  else
    let n := a.extraction_attempts + 1
    match result with
    | some text =>
      if text.length = 0 then failStep now n a
      else
        { a with extraction_attempts := n,
                 content_text := some text,
                 extraction_status := some "ok",
                 next_extract_at := none }
    | none => failStep now n a

/-- Candidate predicate of the SELECT in extract_missing_content
(extract_repo.py lines 58-77), with SQL three-valued logic: a row is
kept only when the conjunction of the five WHERE clauses is tru. -/
def sqlEligible (now : Time) (hours : ℚ) (a : Article) : Bool :=
  let cutoff := qsub now (qmul hours 3600)
  let q :=
    sqlAnd (sqlOfBool (decide (cutoff ≤ a.scraped_at)))
      (sqlAnd (sqlOfBool (decide (a.content_text = none)))
        (sqlAnd
          (sqlOr (sqlOfBool (decide (a.extraction_status = none)))
            (sqlOr (sqlEqStr a.extraction_status "ok")
              (sqlOfBool (decide (a.extraction_attempts < MAX_EXTRACTION_ATTEMPTS)))))
          (sqlAnd
            (sqlOr (sqlOfBool (decide (a.next_extract_at = none)))
              (sqlLeTime a.next_extract_at now))
            (sqlNeStr a.extraction_status "skipped"))))
  decide (q = SqlBool.tru)

/-- Modelled from the spec: eligibility as the specification words it
(section 4.1): scraped_at within the window, content_text null, status
not Skipped, status in Unset or Ok or attempts below the maximum, and
no pending cooldown.  Null status counts as not Skipped. -/
def specEligible (now : Time) (hours : ℚ) (a : Article) : Bool :=
  decide (qsub now (qmul hours 3600) ≤ a.scraped_at)
  && decide (a.content_text = none)
  && !(decide (a.extraction_status = some "skipped"))
  && (decide (a.extraction_status = none)
      || decide (a.extraction_status = some "ok")
      || decide (a.extraction_attempts < MAX_EXTRACTION_ATTEMPTS))
  && (match a.next_extract_at with
      | none => true
      | some t => decide (t ≤ now))

/-- Ingestion state of the extraction fields: upsert_articles writes no
content, no status, no cooldown, and the attempts column defaults to 0. -/
def initialExtractionState (a : Article) : Prop :=
  a.content_text = none ∧ a.extraction_status = none ∧
  a.extraction_attempts = 0 ∧ a.next_extract_at = none

/-- Fresh article exactly as ingestion leaves it. -/
def freshArticle : Article :=
  { id := 1, source := "gnews", title := "Example headline",
    url := "https://example.com/a", category := none, published_at := none,
    scraped_at := 999000, content_text := none, extraction_status := none,
    extraction_attempts := 0, next_extract_at := none,
    importance_score := none, reason_selected := none }

/-- One scheduler pass as seen from one article: the article is either
left alone this pass (not eligible, or eligible but beyond the batch
limit), or it satisfies the SQL candidate predicate and the loop body
runs on it with the extraction result of some raw fetch outcome. -/
inductive passStep : Article → Article → Prop
  | idle (a : Article) : passStep a a
  | proc (a : Article) (now : Time) (hours : ℚ) (raw : Option String)
      (helig : sqlEligible now hours a = true) :
      passStep a (processArticle now (extract_article_text raw) a)

/-- States reachable from a by any number of scheduler passes. -/
def reachable (a b : Article) : Prop := Relation.ReflTransGen passStep a b

/-- Default minimum content length of extract_article_text. -/
def min_content_length : Nat := 100

/-- Inductive invariant of the per-article extraction state machine:
attempts bounded, content present exactly in status ok, content long
enough, and an exhausted counter only in a terminal status. -/
def Inv (a : Article) : Prop :=
  a.extraction_attempts ≤ MAX_EXTRACTION_ATTEMPTS ∧
  (a.content_text ≠ none ↔ a.extraction_status = some "ok") ∧
  (∀ t, a.content_text = some t → min_content_length ≤ t.length) ∧
  (a.extraction_attempts = MAX_EXTRACTION_ATTEMPTS →
    a.extraction_status = some "ok" ∨ a.extraction_status = some "failed" ∨
    a.extraction_status = some "skipped")

/-- Article in cooldown whose cooldown has expired and whose domain is on
the skip list: SQL-eligible for a pass. -/
def cooldownSkipArticle : Article :=
  { id := 2, source := "x", title := "Cooldown then skiplist",
    url := "https://twitter.com/u/1", category := none, published_at := none,
    scraped_at := 999000, content_text := none,
    extraction_status := some "failed", extraction_attempts := 1,
    next_extract_at := some 999900,
    importance_score := none, reason_selected := none }

/-- Article with two consumed attempts and still unset status. -/
def almostExhaustedArticle : Article :=
  { id := 3, source := "gnews", title := "Two failures so far",
    url := "https://example.com/b", category := none, published_at := none,
    scraped_at := 999000, content_text := none,
    extraction_status := none, extraction_attempts := 2,
    next_extract_at := none, importance_score := none,
    reason_selected := none }

/-!
Selection and ranking engine, app/services/ranker.py and
app/services/select_repo.py.  Float keyword weights become the exact
rationals they denote in the source text, written through mkRat so that
concrete runs reduce.
-/

/-- Keyword weight table for tech, ranker.py. -/
def TECH_KW : List (String × ℚ) :=
  [("openai", 2), ("anthropic", 2), ("google", 1), ("microsoft", 1),
   ("apple", 1), ("nvidia", mkRat 3 2), ("tesla", mkRat 4 5), ("ai", mkRat 4 5),
   ("llm", 1), ("chip", mkRat 4 5), ("gpu", mkRat 4 5), ("cyber", 1),
   ("security", 1), ("breach", mkRat 6 5), ("startup", mkRat 7 10),
   ("funding", mkRat 9 10)]

/-- Keyword weight table for finance, ranker.py. -/
def FINANCE_KW : List (String × ℚ) :=
  [("stocks", mkRat 6 5), ("equities", mkRat 6 5), ("bond", 1), ("bonds", 1),
   ("yield", 1), ("yields", 1), ("forex", 1), ("currency", mkRat 4 5),
   ("rupee", mkRat 4 5), ("dollar", mkRat 4 5), ("oil", mkRat 4 5),
   ("gold", mkRat 4 5), ("inflation", mkRat 6 5), ("cpi", mkRat 6 5),
   ("gdp", mkRat 11 10), ("interest rate", mkRat 6 5), ("rates", mkRat 4 5),
   ("fed", mkRat 6 5), ("central bank", mkRat 6 5), ("earnings", 1),
   ("revenue", mkRat 3 5), ("ipo", mkRat 4 5), ("crypto", mkRat 4 5),
   ("bitcoin", mkRat 4 5)]

/-- Keyword weight table for world, ranker.py. -/
def WORLD_KW : List (String × ℚ) :=
  [("election", mkRat 4 5), ("war", 1), ("ceasefire", 1), ("sanction", 1),
   ("trade", mkRat 4 5), ("tariff", mkRat 4 5), ("diplomat", mkRat 3 5),
   ("border", mkRat 3 5)]

/-- Default ordered topic quota mapping, ranker.py. -/
def TOPIC_TARGETS_DEFAULT : List (String × Nat) :=
  [("tech", 4), ("finance", 3), ("world", 2), ("other", 1)]

/-- Collapse each maximal run of whitespace to a single space, the model
of the regex substitution of one space for every whitespace run. -/
def collapseWs : List Char → List Char
  | [] => []
  | [c] => if isPySpace c then [' '] else [c]
  | c :: d :: cs =>
      if isPySpace c && isPySpace d then collapseWs (d :: cs)
      else (if isPySpace c then ' ' else c) :: collapseWs (d :: cs)

/-- Keep lowercase letters, digits and spaces, the model of deleting
every character outside a-z, 0-9 and space. -/
def keepAlnumSpace (c : Char) : Bool :=
  (97 ≤ c.toNat && c.toNat ≤ 122) || (48 ≤ c.toNat && c.toNat ≤ 57) ||
    c.toNat == 32

/-- Title normalisation of ranker.py: lowercase, collapse whitespace,
strip, then delete everything but lowercase alphanumerics and spaces. -/
def _norm (s : String) : String :=
  String.mk ((stripChars (collapseWs (s.toList.map Char.toLower))).filter
    keepAlnumSpace)

/-- Python substring membership: pat occurs somewhere in t. -/
def strContains (t pat : String) : Bool :=
  t.toList.tails.any (fun suf => pat.toList.isPrefixOf suf)

/-- Sum of the weights of the keywords occurring in the normalised
title, in table order, as Python sum over the dict items. -/
def kwSum (kws : List (String × ℚ)) (t : String) : ℚ :=
  (kws.filter (fun kw => strContains t kw.1)).foldl (fun acc kw => qadd acc kw.2) 0

/-- classify_topic of ranker.py: category hints first, in the order
finance, tech, world; otherwise the first topic of tech, finance, world
attaining the maximal keyword score, when positive; else other. -/
def classify_topic (title : String) (category : Option String) : String :=
  let t := _norm title
  let c := _norm (category.getD "")
  if ["finance", "business", "markets", "economy", "money"].any
      (fun k => strContains c k) then "finance"
  else if ["tech", "technology", "ai", "startups"].any
      (fun k => strContains c k) then "tech"
  else if ["world", "international", "global", "geopolitics", "politics"].any
      (fun k => strContains c k) then "world"
  else
    let tech := kwSum TECH_KW t
    let fin := kwSum FINANCE_KW t
    let wor := kwSum WORLD_KW t
    let best :=
      if Rat.blt tech fin then
        (if Rat.blt fin wor then ("world", wor) else ("finance", fin))
      else
        (if Rat.blt tech wor then ("world", wor) else ("tech", tech))
    if Rat.blt 0 best.2 then best.1 else "other"

/-- score_article of ranker.py: recency term 10 / (1 + age in hours,
clamped at 0) plus the keyword weight sum of the classified topic.  The
clock read inside the source function is the explicit argument now. -/
def score_article (now : Time) (title : String) (scraped_at : Time)
    (topic : String) : ℚ :=
  let age_h := qmax (qdiv (qsub now scraped_at) 3600) 0
  let recency := qdiv 10 (qadd 1 age_h)
  let t := _norm title
  let kw :=
    if topic == "tech" then kwSum TECH_KW t
    else if topic == "finance" then kwSum FINANCE_KW t
    else if topic == "world" then kwSum WORLD_KW t
    else 0
  qadd recency kw

/-- Sort key used at every sort site of select_top_diverse. -/
def scoreOf (now : Time) (a : Article) : ℚ :=
  score_article now a.title a.scraped_at (classify_topic a.title a.category)

/-- Python stable sort with reverse=True under a rational key:
insertion sort placing an element before the first element whose key is
not larger, so equal keys keep encounter order. -/
def sortDesc {α : Type} (key : α → ℚ) (l : List α) : List α :=
  l.insertionSort (fun x y => key y ≤ key x)

/-- dict.setdefault(k, []).append(x): first-encounter key order, values
in append order. -/
def addToGroup {β : Type} (k : String) (x : β) :
    List (String × List β) → List (String × List β)
  | [] => [(k, [x])]
  | (k2, items) :: rest =>
      if k2 == k then (k2, items ++ [x]) :: rest
      else (k2, items) :: addToGroup k x rest

/-- Grouping a list by a string key, preserving insertion order exactly
as a Python dict of lists built in one pass. -/
def groupByKey {β : Type} (keyOf : β → String) (l : List β) :
    List (String × List β) :=
  l.foldl (fun acc x => addToGroup (keyOf x) x acc) []

/-- Stage 1 of select_top_diverse: group by source, sort each group by
score descending, keep the top per_source of each group, concatenated
in dict order. -/
def shortlist (now : Time) (per_source : Nat) (rows : List Article) :
    List Article :=
  (groupByKey (fun a => a.source) rows).foldl
    (fun acc p => acc ++ (sortDesc (scoreOf now) p.2).take per_source) []

/-- Stage 2 helper: walk the score-sorted list keeping the first
occurrence of each nonempty normalised title. -/
def dedupeByTitle : List String → List Article → List Article
  | _, [] => []
  | seen, a :: rest =>
      let k := _norm a.title
      if (k != "") && !(seen.contains k) then
        a :: dedupeByTitle (k :: seen) rest
      else dedupeByTitle seen rest

/-- Stage 2 of select_top_diverse: dedupe by normalised title over the
pool sorted by score descending. -/
def dedupeStage (now : Time) (rows : List Article) : List Article :=
  dedupeByTitle [] (sortDesc (scoreOf now) rows)

/-- Stage 3 of select_top_diverse: classify and score each deduped
article, bucket by topic in encounter order, sort each bucket by score
descending. -/
def bucketStage (now : Time) (deduped : List Article) :
    List (String × List (Article × String × ℚ)) :=
  (groupByKey (fun x => x.2.1)
      (deduped.map (fun a =>
        (a, classify_topic a.title a.category, scoreOf now a)))).map
    (fun p => (p.1, sortDesc (fun x => x.2.2) p.2))

/-- buckets.get(topic) and pop(0): remove the head of the named bucket
when it exists and is nonempty. -/
def popBucket {β : Type} (topic : String) :
    List (String × List β) → Option (β × List (String × List β))
  | [] => none
  | (k, items) :: rest =>
      if k == topic then
        match items with
        | [] => none
        | x :: xs => some (x, (k, xs) :: rest)
      else
        match popBucket topic rest with
        | none => none
        | some (x, rest2) => some (x, (k, items) :: rest2)

/-- Inner quota loop: up to target pops from one topic bucket, stopping
once the result holds final_n items. -/
def fillTopic {β : Type} (final_n : Nat) (topic : String) :
    Nat → List β → List (String × List β) →
      List β × List (String × List β)
  | 0, picked, buckets => (picked, buckets)
  | m + 1, picked, buckets =>
      if final_n ≤ picked.length then (picked, buckets)
      else
        match popBucket topic buckets with
        | none => fillTopic final_n topic m picked buckets
        | some (x, buckets2) => fillTopic final_n topic m (picked ++ [x]) buckets2

/-- Stage 4 of select_top_diverse: iterate the ordered topic targets. -/
def quotaFill {β : Type} (final_n : Nat) :
    List (String × Nat) → List β → List (String × List β) →
      List β × List (String × List β)
  | [], picked, buckets => (picked, buckets)
  | (topic, target) :: rest, picked, buckets =>
      let pb := fillTopic final_n topic target picked buckets
      quotaFill final_n rest pb.1 pb.2

/-- Stage 5 of select_top_diverse: when short of final_n, append the
remaining bucket contents sorted by score descending. -/
def backfill (final_n : Nat)
    (pb : List (Article × String × ℚ) ×
      List (String × List (Article × String × ℚ))) :
    List (Article × String × ℚ) :=
  if pb.1.length < final_n then
    pb.1 ++ (sortDesc (fun x => x.2.2)
      (pb.2.foldl (fun acc p => acc ++ p.2) [])).take (final_n - pb.1.length)
  else pb.1

/-- select_top_diverse of ranker.py: the composition of the five stages,
truncated to final_n. -/
def select_top_diverse (now : Time) (rows : List Article) (per_source : Nat)
    (final_n : Nat) (topic_targets : List (String × Nat)) :
    List (Article × String × ℚ) :=
  (backfill final_n
      (quotaFill final_n topic_targets []
        (bucketStage now (dedupeStage now (shortlist now per_source rows))))).take
    final_n

/-- Row filter of pick_and_mark, select_repo.py: in window, status ok,
content present. -/
def rowPred (cutoff : Time) (a : Article) : Bool :=
  decide (cutoff ≤ a.scraped_at) && (a.extraction_status == some "ok")
    && !(a.content_text == none)

/-- enumerate(picked, start=1). -/
def withRanks {β : Type} (start : Nat) : List β → List (Nat × β)
  | [] => []
  | x :: xs => (start, x) :: withRanks (start + 1) xs

/-- reason_selected string written by pick_and_mark. -/
def mkReason (rank : Nat) (topic : String) : String :=
  "rank=" ++ toString rank ++ ";topic=" ++ topic

/-- Persisting importance_score and reason_selected onto the pool rows:
the row whose primary key matches a mark receives its score and reason. -/
def applyMarks (marks : List (Int × ℚ × String)) (a : Article) : Article :=
  match marks.find? (fun m => m.1 == a.id) with
  | some m => { a with importance_score := some m.2.1,
                       reason_selected := some m.2.2 }
  | none => a

/-- Selection of pick_and_mark, select_repo.py: the ranked tuples over
the window of extracted rows of the pool. -/
def selectedOf (now : Time) (hours : ℚ) (per_source final_n : Nat)
    (topic_targets : List (String × Nat)) (pool : List Article) :
    List (Article × String × ℚ) :=
  select_top_diverse now
    (pool.filter (rowPred (qsub now (qmul hours 3600))))
    per_source final_n topic_targets

/-- Marks written by pick_and_mark: id, score and reason string of each
picked tuple in rank order. -/
def marksOf (picked : List (Article × String × ℚ)) :
    List (Int × ℚ × String) :=
  (withRanks 1 picked).map
    (fun rp => (rp.2.1.id, rp.2.2.2, mkReason rp.1 rp.2.2.1))

/-- pick_and_mark of select_repo.py over an explicit pool: filter the
window of ok rows, run the selection, persist score and reason per
picked article, and return the ordered id list with the updated pool. -/
def pick_and_mark (now : Time) (hours : ℚ) (per_source final_n : Nat)
    (topic_targets : List (String × Nat)) (pool : List Article) :
    List Int × List Article :=
  ((selectedOf now hours per_source final_n topic_targets pool).map
      (fun x => x.1.id),
   pool.map (applyMarks
     (marksOf (selectedOf now hours per_source final_n topic_targets pool))))

/-- Action of an article transformation on a selection tuple. -/
def tupMap (f : Article → Article) (x : Article × String × ℚ) :
    Article × String × ℚ :=
  (f x.1, x.2)

/-- Action of an article transformation on a topic bucket. -/
def bucketsMap (f : Article → Article)
    (p : String × List (Article × String × ℚ)) :
    String × List (Article × String × ℚ) :=
  (p.1, p.2.map (tupMap f))

/-- Extracted article constructor for concrete selection scenarios. -/
def mkOkArticle (i : Int) (src title : String) (cat : Option String)
    (scr : Time) : Article :=
  { id := i, source := src, title := title,
    url := "https://example.com/" ++ src, category := cat,
    published_at := none, scraped_at := scr,
    content_text := some "body", extraction_status := some "ok",
    extraction_attempts := 1, next_extract_at := none,
    importance_score := none, reason_selected := none }

/-- Clock for the concrete selection scenarios. -/
def now7 : Time := 1000000

/-- Scenario pool of C7: five tech articles whose recency terms are 9,
8, 7, 6, 5 and three finance articles at 10, 4, 3; titles carry no
keywords and topics come from category hints, so the scores are exactly
the recency terms. -/
def c7pool : List Article :=
  [mkOkArticle 1 "alpha" "alpha" (some "tech") (qsub now7 400),
   mkOkArticle 2 "bravo" "bravo" (some "tech") (qsub now7 900),
   mkOkArticle 3 "delta" "delta" (some "tech") (mkRat 6989200 7),
   mkOkArticle 4 "echo" "echo" (some "tech") (qsub now7 2400),
   mkOkArticle 5 "hotel" "hotel" (some "tech") (qsub now7 3600),
   mkOkArticle 6 "india" "india" (some "finance") now7,
   mkOkArticle 7 "juliett" "juliett" (some "finance") (qsub now7 5400),
   mkOkArticle 8 "kilo" "kilo" (some "finance") (qsub now7 8400)]

/-- Two equal-scored same-source articles with the larger id first. -/
def c8pool : List Article :=
  [mkOkArticle 2 "s" "bravo" (some "tech") (qsub now7 3600),
   mkOkArticle 1 "s" "alpha" (some "tech") (qsub now7 3600)]

/-- Article whose title survives normalisation. -/
def c10keep : Article := mkOkArticle 21 "m" "hello world" (some "tech") now7

/-- Article whose title normalises to the empty string. -/
def c10drop : Article := mkOkArticle 22 "n" "!!!" (some "tech") now7

def c10pool : List Article := [c10keep, c10drop]

theorem qadd_eq (a b : ℚ) : qadd a b = a + b := by
  have ha : (a.den : ℚ) ≠ 0 := Nat.cast_ne_zero.2 a.den_nz
  have hb : (b.den : ℚ) ≠ 0 := Nat.cast_ne_zero.2 b.den_nz
  rw [qadd, Rat.divInt_eq_div]
  conv_rhs => rw [← Rat.num_div_den a, ← Rat.num_div_den b]
  push_cast
  field_simp

theorem qsub_eq (a b : ℚ) : qsub a b = a - b := by
  have ha : (a.den : ℚ) ≠ 0 := Nat.cast_ne_zero.2 a.den_nz
  have hb : (b.den : ℚ) ≠ 0 := Nat.cast_ne_zero.2 b.den_nz
  rw [qsub, Rat.divInt_eq_div]
  conv_rhs => rw [← Rat.num_div_den a, ← Rat.num_div_den b]
  push_cast
  field_simp
  ring

theorem qmul_eq (a b : ℚ) : qmul a b = a * b := by
  have ha : (a.den : ℚ) ≠ 0 := Nat.cast_ne_zero.2 a.den_nz
  have hb : (b.den : ℚ) ≠ 0 := Nat.cast_ne_zero.2 b.den_nz
  rw [qmul, Rat.divInt_eq_div]
  conv_rhs => rw [← Rat.num_div_den a, ← Rat.num_div_den b]
  push_cast
  field_simp

theorem qdiv_eq (a b : ℚ) : qdiv a b = a / b := by
  by_cases hb : b = 0
  · subst hb
    rw [qdiv]
    norm_num
  · have ha : (a.den : ℚ) ≠ 0 := Nat.cast_ne_zero.2 a.den_nz
    have hbd : (b.den : ℚ) ≠ 0 := Nat.cast_ne_zero.2 b.den_nz
    have hbn : (b.num : ℚ) ≠ 0 := by
      exact_mod_cast fun h => hb (Rat.zero_iff_num_zero.2 (by exact_mod_cast h))
    rw [qdiv, Rat.divInt_eq_div]
    conv_rhs => rw [← Rat.num_div_den a, ← Rat.num_div_den b]
    push_cast
    field_simp

theorem qpow_eq (a : ℚ) (n : Nat) : qpow a n = a ^ n := by
  induction n with
  | zero => rfl
  | succ n ih => rw [qpow, ih, qmul_eq, pow_succ, mul_comm]

theorem qmax_eq (a b : ℚ) : qmax a b = max a b := by
  have hbl : Rat.blt a b = true ↔ a < b := Iff.rfl
  rw [qmax]
  by_cases h : a < b
  · rw [if_pos (hbl.2 h)]
    exact (max_eq_right h.le).symm
  · rw [if_neg (fun hb => h (hbl.1 hb))]
    exact (max_eq_left (not_lt.1 h)).symm

/-- C1 (code_bug evidence): the specification predicate accepts a fresh
article (null extraction_status, no content, in window, no cooldown),
but the WHERE clause of the source query rejects it, because under SQL
three-valued logic the clause extraction_status != skipped is unknown
for a NULL status and the row is dropped.  This contradicts the query
comments and the reset script of the repository, which treat NULL
status as retryable. -/
theorem null_status_article_excluded_from_candidates :
    specEligible 1000000 10 freshArticle = true ∧
    sqlEligible 1000000 10 freshArticle = false := by
  decide

/-- C2: on a failed attempt outside the skip list the counter becomes
attempts + 1, and while the new count is below the maximum the cooldown
written is now + 5 * 6 ^ (newcount - 1) minutes, giving 5 minutes after
the first failure and 30 minutes after the second; the third failure
writes no cooldown and terminally fails the article. -/
theorem backoff_schedule (a : Article) (now : Time)
    (hskip : netloc a.url ∉ SKIP_DOMAINS) :
    ((processArticle now none a).extraction_attempts = a.extraction_attempts + 1) ∧
    (a.extraction_attempts + 1 < MAX_EXTRACTION_ATTEMPTS →
      (processArticle now none a).next_extract_at =
        some (now + (5 * 6 ^ a.extraction_attempts : ℚ) * 60)) ∧
    (a.extraction_attempts = 0 →
      (processArticle now none a).next_extract_at = some (now + 5 * 60)) ∧
    (a.extraction_attempts = 1 →
      (processArticle now none a).next_extract_at = some (now + 30 * 60)) ∧
    (a.extraction_attempts = 2 →
      (processArticle now none a).next_extract_at = none ∧
      (processArticle now none a).extraction_status = some "failed") := by
  have h1 : processArticle now none a = failStep now (a.extraction_attempts + 1) a := by
    simp [processArticle, hskip]
  rw [h1]
  refine ⟨?_, ?_, ?_, ?_, ?_⟩
  · unfold failStep; split <;> rfl
  · intro hlt
    unfold failStep
    rw [if_pos hlt]
    simp [Nat.add_sub_cancel, qpow_eq, qmul_eq, qadd_eq]
  · intro h0
    rw [h0]
    simp [failStep, MAX_EXTRACTION_ATTEMPTS, qpow_eq, qmul_eq, qadd_eq]
  · intro h0
    rw [h0]
    simp [failStep, MAX_EXTRACTION_ATTEMPTS, qpow_eq, qmul_eq, qadd_eq]
    norm_num
  · intro h0
    rw [h0]
    simp [failStep, MAX_EXTRACTION_ATTEMPTS]

/-- C2 witness: the first failure of a fresh article yields one attempt
and a cooldown of exactly 5 minutes. -/
theorem backoff_schedule_witness :
    (processArticle 1000 none freshArticle).extraction_attempts = 1 ∧
    (processArticle 1000 none freshArticle).next_extract_at = some (1000 + 5 * 60) := by
  have h := backoff_schedule freshArticle 1000 (by decide)
  exact ⟨h.1, h.2.2.1 rfl⟩

/-- C4 counterexample: a SQL-eligible article with an expired but still
recorded cooldown and a skip-listed domain is moved to the terminal
state Skipped by the pass, yet its next_extract_at is not cleared. -/
theorem skipped_transition_retains_cooldown :
    sqlEligible 1000000 10 cooldownSkipArticle = true ∧
    (processArticle 1000000 none cooldownSkipArticle).extraction_status = some "skipped" ∧
    (processArticle 1000000 none cooldownSkipArticle).next_extract_at = some 999900 := by
  decide

/-- Helper for the amended C4: the failure branch clears the cooldown
exactly when it newly enters a terminal status. -/
theorem failStep_terminal_cooldown (now : Time) (n : Nat) (a : Article) :
    ((failStep now n a).extraction_status = some "ok" ∧
        a.extraction_status ≠ some "ok" →
      (failStep now n a).next_extract_at = none) ∧
    ((failStep now n a).extraction_status = some "failed" ∧
        a.extraction_status ≠ some "failed" →
      (failStep now n a).next_extract_at = none) := by
  unfold failStep
  split_ifs with h
  · exact ⟨fun hc => absurd hc.1 hc.2, fun hc => absurd hc.1 hc.2⟩
  · exact ⟨fun hc => absurd hc.1 (by simp), fun _ => rfl⟩

/-- C4 amended: a pass transition that newly enters Ok or newly enters
Failed clears next_extract_at, but the transition taken on a
skip-listed domain leaves next_extract_at exactly as it was, so an
article entering Skipped keeps any recorded cooldown. -/
theorem terminal_transition_cooldown (a : Article) (now : Time) (result : Option String) :
    ((processArticle now result a).extraction_status = some "ok" ∧
        a.extraction_status ≠ some "ok" →
      (processArticle now result a).next_extract_at = none) ∧
    ((processArticle now result a).extraction_status = some "failed" ∧
        a.extraction_status ≠ some "failed" →
      (processArticle now result a).next_extract_at = none) ∧
    (netloc a.url ∈ SKIP_DOMAINS →
      (processArticle now result a).next_extract_at = a.next_extract_at) := by
  by_cases hdom : netloc a.url ∈ SKIP_DOMAINS
  · refine ⟨?_, ?_, ?_⟩ <;> simp [processArticle, hdom]
  · rcases result with _ | text
    · simp only [processArticle, if_neg hdom]
      exact ⟨(failStep_terminal_cooldown _ _ _).1,
             (failStep_terminal_cooldown _ _ _).2,
             fun h2 => absurd h2 hdom⟩
    · simp only [processArticle, if_neg hdom]
      by_cases hlen : text.length = 0
      · rw [if_pos hlen]
        exact ⟨(failStep_terminal_cooldown _ _ _).1,
               (failStep_terminal_cooldown _ _ _).2,
               fun h2 => absurd h2 hdom⟩
      · rw [if_neg hlen]
        refine ⟨fun _ => rfl, ?_, fun h2 => absurd h2 hdom⟩
        intro hc
        exact absurd hc.1 (by simp)

/-- C4 amended witness: entering Ok from a fresh article, entering
Failed on the third failure, and entering Skipped with a recorded
cooldown, at concrete inputs. -/
theorem terminal_transition_cooldown_witness :
    (processArticle 0 (some "x") freshArticle).next_extract_at = none ∧
    (processArticle 0 none almostExhaustedArticle).next_extract_at = none ∧
    (processArticle 0 none cooldownSkipArticle).next_extract_at =
      cooldownSkipArticle.next_extract_at :=
  ⟨(terminal_transition_cooldown freshArticle 0 (some "x")).1 (by decide),
   (terminal_transition_cooldown almostExhaustedArticle 0 none).2.1 (by decide),
   (terminal_transition_cooldown cooldownSkipArticle 0 none).2.2 (by decide)⟩

/-- C5: a selected candidate whose domain is on the skip list is marked
Skipped and nothing else changes: the attempt counter is untouched, and
the right hand side does not depend on the extraction result, so the
Extractor is never consulted for it. -/
theorem skip_domain_short_circuit (now : Time) (hours : ℚ) (result : Option String)
    (a : Article) (helig : sqlEligible now hours a = true)
    (hdom : netloc a.url ∈ SKIP_DOMAINS) :
    processArticle now result a = { a with extraction_status := some "skipped" } := by
  simp [processArticle, hdom]

/-- C5 witness at a concrete selected candidate on the skip list. -/
theorem skip_domain_short_circuit_witness :
    processArticle 1000000 (some "text") cooldownSkipArticle =
      { cooldownSkipArticle with extraction_status := some "skipped" } :=
  skip_domain_short_circuit 1000000 10 (some "text") cooldownSkipArticle
    (by decide) (by decide)

/-- C7: with topic_targets tech 2 then finance 1 and final_n 3, over a
pool of five tech articles scored 9, 8, 7, 6, 5 and three finance
articles scored 10, 4, 3 with no per-source or dedupe eliminations, the
selection is exactly tech 9, tech 8, finance 10 in that order: quota
iteration order governs topic priority although the top finance score
exceeds every tech score. -/
theorem quota_order_governs_topic_priority :
    (c7pool.map (fun a => (classify_topic a.title a.category, scoreOf now7 a)) =
      [("tech", 9), ("tech", 8), ("tech", 7), ("tech", 6), ("tech", 5),
       ("finance", 10), ("finance", 4), ("finance", 3)]) ∧
    ((select_top_diverse now7 c7pool 5 3 [("tech", 2), ("finance", 1)]).map
        (fun x => (x.1.id, x.2.1, x.2.2)) =
      [(1, "tech", 9), (2, "tech", 8), (6, "finance", 10)]) := by
  decide

/-- C8 counterexample: two articles of one source with equal scores,
listed with id 2 before id 1, are returned in encounter order 2, 1 and
not in ascending id order, so ties are not broken by ascending id. -/
theorem tie_not_broken_by_id_counterexample :
    (c8pool.map (fun a => scoreOf now7 a) = [5, 5]) ∧
    ((select_top_diverse now7 c8pool 2 2 [("tech", 2)]).map
        (fun x => x.1.id) = [2, 1]) := by
  decide

/-- Inserting x into a list puts it before the first element with key
not above key x; the key-q sublist gains x at its front exactly when
key x is q. -/
theorem orderedInsert_filter_key {α : Type} (key : α → ℚ) (x : α) (l : List α)
    (q : ℚ) :
    (l.orderedInsert (fun a b => key b ≤ key a) x).filter (fun a => key a == q) =
      if key x = q then x :: l.filter (fun a => key a == q)
      else l.filter (fun a => key a == q) := by
  induction l with
  | nil =>
      by_cases hx : key x = q <;> simp [List.orderedInsert, hx]
  | cons b t ih =>
      rw [List.orderedInsert]
      by_cases h : key b ≤ key x
      · rw [if_pos h]
        by_cases hx : key x = q <;> simp [hx, List.filter_cons]
      · rw [if_neg h]
        by_cases hx : key x = q
        · have hb : ¬(key b = q) := by
            intro he
            exact h (le_of_eq (he.trans hx.symm))
          simp [List.filter_cons, hb, ih, hx]
        · simp [List.filter_cons, ih, hx]

/-- The sort used at every sort site keeps each score class in its
encounter order. -/
theorem sortDesc_filter_key {α : Type} (key : α → ℚ) (l : List α) (q : ℚ) :
    (sortDesc key l).filter (fun a => key a == q) =
      l.filter (fun a => key a == q) := by
  induction l with
  | nil => rfl
  | cons x t ih =>
      simp only [sortDesc, List.insertionSort] at ih ⊢
      rw [orderedInsert_filter_key]
      by_cases hx : key x = q
      · rw [if_pos hx, ih, List.filter_cons]
        simp [hx]
      · rw [if_neg hx, ih, List.filter_cons]
        simp [hx]

/-- C8 amended: at every sort step of the selection engine (the one sort
routine sortDesc serves the per-source shortlist, the dedupe ordering,
the topic buckets and the backfill) the output is ordered by key
descending, and elements of equal key keep the encounter order of the
input: ties are resolved by input order, not by ascending article id. -/
theorem sort_steps_descending_and_encounter_stable {α : Type} (key : α → ℚ)
    (l : List α) :
    (sortDesc key l).Pairwise (fun x y => key y ≤ key x) ∧
    (∀ q : ℚ, (sortDesc key l).filter (fun a => key a == q) =
      l.filter (fun a => key a == q)) := by
  constructor
  · haveI htot : IsTotal α (fun x y => key y ≤ key x) :=
      ⟨fun a b => le_total (key b) (key a)⟩
    haveI htr : IsTrans α (fun x y => key y ≤ key x) :=
      ⟨fun a b c hab hbc => le_trans hbc hab⟩
    exact List.sorted_insertionSort _ l
  · exact fun q => sortDesc_filter_key key l q

theorem sqlAnd_tru {x y : SqlBool} (h : sqlAnd x y = SqlBool.tru) :
    x = SqlBool.tru ∧ y = SqlBool.tru := by
  cases x <;> cases y <;> simp_all [sqlAnd]

theorem sqlOr_tru {x y : SqlBool} (h : sqlOr x y = SqlBool.tru) :
    x = SqlBool.tru ∨ y = SqlBool.tru := by
  cases x <;> cases y <;> simp_all [sqlOr]

theorem sqlOfBool_tru {b : Bool} (h : sqlOfBool b = SqlBool.tru) : b = true := by
  cases b <;> simp_all [sqlOfBool]

theorem sqlNeStr_tru {x : Option String} {v : String}
    (h : sqlNeStr x v = SqlBool.tru) : x ≠ none ∧ x ≠ some v := by
  cases x with
  | none => simp [sqlNeStr] at h
  | some s =>
    have hs := sqlOfBool_tru h
    refine ⟨by simp, ?_⟩
    intro he
    rw [Option.some.injEq] at he
    simp [he] at hs

theorem sqlEqStr_tru {x : Option String} {v : String}
    (h : sqlEqStr x v = SqlBool.tru) : x = some v := by
  cases x with
  | none => simp [sqlEqStr] at h
  | some s =>
    have hs := sqlOfBool_tru h
    simp at hs
    rw [hs]

/-- What the SQL candidate predicate guarantees about a selected row. -/
theorem sqlEligible_facts (now : Time) (hours : ℚ) (a : Article)
    (h : sqlEligible now hours a = true) :
    a.content_text = none ∧
    a.extraction_status ≠ none ∧
    a.extraction_status ≠ some "skipped" ∧
    (a.extraction_status = some "ok" ∨
      a.extraction_attempts < MAX_EXTRACTION_ATTEMPTS) := by
  have h0 : sqlAnd (sqlOfBool (decide (qsub now (qmul hours 3600) ≤ a.scraped_at)))
      (sqlAnd (sqlOfBool (decide (a.content_text = none)))
        (sqlAnd
          (sqlOr (sqlOfBool (decide (a.extraction_status = none)))
            (sqlOr (sqlEqStr a.extraction_status "ok")
              (sqlOfBool (decide (a.extraction_attempts < MAX_EXTRACTION_ATTEMPTS)))))
          (sqlAnd
            (sqlOr (sqlOfBool (decide (a.next_extract_at = none)))
              (sqlLeTime a.next_extract_at now))
            (sqlNeStr a.extraction_status "skipped")))) = SqlBool.tru :=
    of_decide_eq_true h
  obtain ⟨-, h1⟩ := sqlAnd_tru h0
  obtain ⟨hct, h2⟩ := sqlAnd_tru h1
  obtain ⟨hor3, h3⟩ := sqlAnd_tru h2
  obtain ⟨-, hns⟩ := sqlAnd_tru h3
  have hcontent : a.content_text = none := of_decide_eq_true (sqlOfBool_tru hct)
  obtain ⟨hnn, hnskip⟩ := sqlNeStr_tru hns
  refine ⟨hcontent, hnn, hnskip, ?_⟩
  rcases sqlOr_tru hor3 with hnull | hrest
  · exact absurd (of_decide_eq_true (sqlOfBool_tru hnull)) hnn
  · rcases sqlOr_tru hrest with hok | hlt
    · exact Or.inl (sqlEqStr_tru hok)
    · exact Or.inr (of_decide_eq_true (sqlOfBool_tru hlt))

/-- Text accepted by the length gate of the Extractor is at least the
minimum length. -/
theorem extract_article_text_length {raw : Option String} {t : String}
    (h : extract_article_text raw = some t) : min_content_length ≤ t.length := by
  cases raw with
  | none => exact absurd h (by simp [extract_article_text])
  | some s =>
    simp only [extract_article_text] at h
    split_ifs at h with h0 h1
    rw [Option.some.injEq] at h
    rw [← h, min_content_length]
    exact Nat.le_of_not_lt h1

/-- The loop body changes the attempt counter by zero or one. -/
theorem processArticle_attempts (now : Time) (result : Option String) (a : Article) :
    (processArticle now result a).extraction_attempts = a.extraction_attempts ∨
    (processArticle now result a).extraction_attempts = a.extraction_attempts + 1 := by
  by_cases hdom : netloc a.url ∈ SKIP_DOMAINS
  · exact Or.inl (by simp [processArticle, hdom])
  · refine Or.inr ?_
    cases result with
    | none =>
      have he : processArticle now none a = failStep now (a.extraction_attempts + 1) a := by
        simp [processArticle, hdom]
      rw [he]; unfold failStep; split <;> rfl
    | some text =>
      by_cases h0 : text.length = 0
      · have he : processArticle now (some text) a =
            failStep now (a.extraction_attempts + 1) a := by
          simp [processArticle, hdom, h0]
        rw [he]; unfold failStep; split <;> rfl
      · simp [processArticle, hdom, h0]

/-- The loop body preserves the state machine invariant on every
SQL-selected row. -/
theorem processArticle_preserves_inv (now : Time) (hours : ℚ) (raw : Option String)
    (a : Article) (helig : sqlEligible now hours a = true) (ha : Inv a) :
    Inv (processArticle now (extract_article_text raw) a) := by
  obtain ⟨hcontent, hnn, hnskip, hor⟩ := sqlEligible_facts now hours a helig
  obtain ⟨hle, hiff, hlen, hterm⟩ := ha
  have hnok : a.extraction_status ≠ some "ok" := by
    intro hok
    exact (hiff.2 hok) hcontent
  have hlt : a.extraction_attempts < MAX_EXTRACTION_ATTEMPTS := hor.resolve_left hnok
  have hM : MAX_EXTRACTION_ATTEMPTS = 3 := rfl
  by_cases hdom : netloc a.url ∈ SKIP_DOMAINS
  · have he : processArticle now (extract_article_text raw) a =
        { a with extraction_status := some "skipped" } := by
      simp [processArticle, hdom]
    rw [he]
    refine ⟨hle, ?_, hlen, fun _ => Or.inr (Or.inr rfl)⟩
    simp [hcontent]
  · cases hres : extract_article_text raw with
    | some t =>
      have ht : min_content_length ≤ t.length := extract_article_text_length hres
      have ht0 : ¬(t.length = 0) := by
        rw [min_content_length] at ht
        omega
      have he : processArticle now (some t) a =
          { a with extraction_attempts := a.extraction_attempts + 1,
                   content_text := some t, extraction_status := some "ok",
                   next_extract_at := none } := by
        simp [processArticle, hdom, ht0]
      rw [he]
      refine ⟨?_, by simp, ?_, fun _ => Or.inl rfl⟩
      · show a.extraction_attempts + 1 ≤ MAX_EXTRACTION_ATTEMPTS
        rw [hM] at hlt ⊢
        omega
      · intro u hu
        have h2 : some t = some u := hu
        rw [Option.some.injEq] at h2
        rw [← h2]
        exact ht
    | none =>
      have he : processArticle now none a = failStep now (a.extraction_attempts + 1) a := by
        simp [processArticle, hdom]
      rw [he]
      unfold failStep
      split_ifs with hn
      · refine ⟨?_, ?_, ?_, ?_⟩
        · show a.extraction_attempts + 1 ≤ MAX_EXTRACTION_ATTEMPTS
          rw [hM] at hlt ⊢
          omega
        · show a.content_text ≠ none ↔ a.extraction_status = some "ok"
          rw [hcontent]
          simp [hnok]
        · intro u hu
          have h2 : a.content_text = some u := hu
          rw [hcontent] at h2
          exact absurd h2 (by simp)
        · intro h3
          have h4 : a.extraction_attempts + 1 = MAX_EXTRACTION_ATTEMPTS := h3
          rw [hM] at hn h4
          omega
      · refine ⟨?_, ?_, ?_, fun _ => Or.inr (Or.inl rfl)⟩
        · show a.extraction_attempts + 1 ≤ MAX_EXTRACTION_ATTEMPTS
          rw [hM] at hlt ⊢
          omega
        · show a.content_text ≠ none ↔ (some "failed" : Option String) = some "ok"
          rw [hcontent]
          simp
        · intro u hu
          have h2 : a.content_text = some u := hu
          rw [hcontent] at h2
          exact absurd h2 (by simp)

/-- One pass step preserves the invariant. -/
theorem passStep_preserves_inv {a b : Article} (h : passStep a b) (ha : Inv a) :
    Inv b := by
  cases h with
  | idle => exact ha
  | proc now hours raw helig => exact processArticle_preserves_inv now hours raw a helig ha

/-- The invariant holds along every run of scheduler passes. -/
theorem reachable_inv {a b : Article} (h : reachable a b) (ha : Inv a) : Inv b := by
  induction h with
  | refl => exact ha
  | tail _ hstep ih => exact passStep_preserves_inv hstep ih

/-- The ingestion state satisfies the invariant. -/
theorem initial_inv {a : Article} (h : initialExtractionState a) : Inv a := by
  obtain ⟨hc, hs, hn, -⟩ := h
  refine ⟨by rw [hn]; norm_num [MAX_EXTRACTION_ATTEMPTS], ?_, ?_, ?_⟩
  · rw [hc, hs]; simp
  · intro t ht; rw [hc] at ht; exact absurd ht (by simp)
  · intro h3; rw [hn] at h3; exact absurd h3 (by norm_num [MAX_EXTRACTION_ATTEMPTS])

/-- C3: across scheduler passes the attempt counter never decreases, and
from the ingestion state it never exceeds the configured maximum. -/
theorem extraction_attempts_monotone_and_bounded :
    (∀ a b : Article, passStep a b →
      a.extraction_attempts ≤ b.extraction_attempts) ∧
    (∀ a b : Article, initialExtractionState a → reachable a b →
      b.extraction_attempts ≤ MAX_EXTRACTION_ATTEMPTS) := by
  constructor
  · intro a b h
    cases h with
    | idle => exact Nat.le_refl _
    | proc now hours raw helig =>
      rcases processArticle_attempts now (extract_article_text raw) a with he | he <;>
        rw [he] <;> omega
  · intro a b h0 h
    exact (reachable_inv h (initial_inv h0)).1

/-- C3 witness: a real pass step on a concrete eligible article does not
decrease the counter, and the fresh article is within the bound. -/
theorem extraction_attempts_monotone_and_bounded_witness :
    cooldownSkipArticle.extraction_attempts ≤
      (processArticle 1000000 (extract_article_text none) cooldownSkipArticle).extraction_attempts ∧
    freshArticle.extraction_attempts ≤ MAX_EXTRACTION_ATTEMPTS :=
  ⟨extraction_attempts_monotone_and_bounded.1 cooldownSkipArticle _
      (passStep.proc cooldownSkipArticle 1000000 10 none (by decide)),
   extraction_attempts_monotone_and_bounded.2 freshArticle freshArticle
      ⟨rfl, rfl, rfl, rfl⟩ Relation.ReflTransGen.refl⟩

/-- C6: from the ingestion state, under scheduler passes only, content is
present exactly in status Ok and any stored content meets the minimum
length. -/
theorem content_present_iff_ok (a b : Article)
    (h0 : initialExtractionState a) (h : reachable a b) :
    (b.content_text ≠ none ↔ b.extraction_status = some "ok") ∧
    (b.extraction_status = some "ok" →
      ∀ t, b.content_text = some t → min_content_length ≤ t.length) := by
  have hinv := reachable_inv h (initial_inv h0)
  exact ⟨hinv.2.1, fun _ => hinv.2.2.1⟩

/-- C6 witness: the invariant instantiated after one idle pass from the
fresh article. -/
theorem content_present_iff_ok_witness :
    (freshArticle.content_text ≠ none ↔ freshArticle.extraction_status = some "ok") ∧
    (freshArticle.extraction_status = some "ok" →
      ∀ t, freshArticle.content_text = some t → min_content_length ≤ t.length) :=
  content_present_iff_ok freshArticle freshArticle ⟨rfl, rfl, rfl, rfl⟩
    (Relation.ReflTransGen.single (passStep.idle freshArticle))

theorem orderedInsert_map {α β : Type} (ka : α → ℚ) (kb : β → ℚ) (g : α → β)
    (hk : ∀ x, kb (g x) = ka x) (a : α) (l : List α) :
    (l.map g).orderedInsert (fun x y => kb y ≤ kb x) (g a) =
      (l.orderedInsert (fun x y => ka y ≤ ka x) a).map g := by
  induction l with
  | nil => rfl
  | cons b t ih =>
      simp only [List.map_cons, List.orderedInsert, hk]
      by_cases h : ka b ≤ ka a
      · rw [if_pos h, if_pos h, List.map_cons, List.map_cons]
      · rw [if_neg h, if_neg h, List.map_cons, ih]

theorem sortDesc_map {α β : Type} (ka : α → ℚ) (kb : β → ℚ) (g : α → β)
    (hk : ∀ x, kb (g x) = ka x) (l : List α) :
    sortDesc kb (l.map g) = (sortDesc ka l).map g := by
  induction l with
  | nil => rfl
  | cons a t ih =>
      simp only [sortDesc, List.map_cons, List.insertionSort] at ih ⊢
      rw [ih, orderedInsert_map ka kb g hk]

theorem addToGroup_map {β γ : Type} (g : β → γ) (k : String) (x : β)
    (acc : List (String × List β)) :
    addToGroup k (g x) (acc.map (fun p => (p.1, p.2.map g))) =
      (addToGroup k x acc).map (fun p => (p.1, p.2.map g)) := by
  induction acc with
  | nil => rfl
  | cons p rest ih =>
      obtain ⟨k2, items⟩ := p
      simp only [List.map_cons, addToGroup]
      by_cases h : k2 = k
      · subst h
        simp
      · simp [h, ih]

theorem groupByKey_map {β γ : Type} (kb : β → String) (kc : γ → String)
    (g : β → γ) (hk : ∀ x, kc (g x) = kb x) (l : List β) :
    groupByKey kc (l.map g) =
      (groupByKey kb l).map (fun p => (p.1, p.2.map g)) := by
  suffices h : ∀ acc : List (String × List β),
      (l.map g).foldl (fun acc x => addToGroup (kc x) x acc)
        (acc.map (fun p => (p.1, p.2.map g))) =
      (l.foldl (fun acc x => addToGroup (kb x) x acc) acc).map
        (fun p => (p.1, p.2.map g)) by
    simpa using h []
  intro acc
  induction l generalizing acc with
  | nil => rfl
  | cons x t ih =>
      simp only [List.map_cons, List.foldl_cons, hk]
      rw [addToGroup_map, ih]

theorem dedupeByTitle_map (f : Article → Article)
    (htit : ∀ a, (f a).title = a.title) (seen : List String)
    (l : List Article) :
    dedupeByTitle seen (l.map f) = (dedupeByTitle seen l).map f := by
  induction l generalizing seen with
  | nil => rfl
  | cons a t ih =>
      simp only [List.map_cons, dedupeByTitle, htit]
      by_cases h : ((_norm a.title != "") && !(seen.contains (_norm a.title))) = true
      · rw [if_pos h, if_pos h, List.map_cons, ih]
      · rw [if_neg h, if_neg h, ih]

theorem popBucket_map {β γ : Type} (g : β → γ) (topic : String)
    (bs : List (String × List β)) :
    popBucket topic (bs.map (fun p => (p.1, p.2.map g))) =
      (popBucket topic bs).map
        (fun pr => (g pr.1, pr.2.map (fun p => (p.1, p.2.map g)))) := by
  induction bs with
  | nil => rfl
  | cons p rest ih =>
      obtain ⟨k, items⟩ := p
      simp only [List.map_cons, popBucket]
      by_cases h : (k == topic) = true
      · rw [if_pos h, if_pos h]
        cases items <;> rfl
      · rw [if_neg h, if_neg h, ih]
        cases hpb : popBucket topic rest with
        | none => rfl
        | some pr => rfl

theorem fillTopic_map {β γ : Type} (g : β → γ) (fn : Nat) (topic : String)
    (m : Nat) (picked : List β) (bs : List (String × List β)) :
    fillTopic fn topic m (picked.map g) (bs.map (fun p => (p.1, p.2.map g))) =
      ((fillTopic fn topic m picked bs).1.map g,
       (fillTopic fn topic m picked bs).2.map (fun p => (p.1, p.2.map g))) := by
  induction m generalizing picked bs with
  | zero => rfl
  | succ m ih =>
      simp only [fillTopic, List.length_map]
      by_cases h : fn ≤ picked.length
      · rw [if_pos h, if_pos h]
      · rw [if_neg h, if_neg h, popBucket_map]
        cases hpb : popBucket topic bs with
        | none => simpa using ih picked bs
        | some pr =>
            obtain ⟨x, bs2⟩ := pr
            simpa [List.map_append] using ih (picked ++ [x]) bs2

theorem quotaFill_map {β γ : Type} (g : β → γ) (fn : Nat)
    (tg : List (String × Nat)) (picked : List β)
    (bs : List (String × List β)) :
    quotaFill fn tg (picked.map g) (bs.map (fun p => (p.1, p.2.map g))) =
      ((quotaFill fn tg picked bs).1.map g,
       (quotaFill fn tg picked bs).2.map (fun p => (p.1, p.2.map g))) := by
  induction tg generalizing picked bs with
  | nil => rfl
  | cons tt rest ih =>
      obtain ⟨topic, target⟩ := tt
      simp only [quotaFill]
      rw [fillTopic_map, ih]

theorem foldl_append_map {β γ : Type} (g : β → γ)
    (bs : List (String × List β)) (acc : List β) :
    (bs.map (fun p => (p.1, p.2.map g))).foldl (fun acc p => acc ++ p.2)
        (acc.map g) =
      (bs.foldl (fun acc p => acc ++ p.2) acc).map g := by
  induction bs generalizing acc with
  | nil => rfl
  | cons p rest ih =>
      simp only [List.map_cons, List.foldl_cons]
      rw [← List.map_append, ih]

theorem tupMap_def (f : Article → Article) :
    tupMap f = fun x => (f x.1, x.2) := rfl

theorem bucketsMap_def (f : Article → Article) :
    bucketsMap f = fun p => (p.1, p.2.map (tupMap f)) := rfl

theorem scoreOf_map (now : Time) (f : Article → Article)
    (htit : ∀ a, (f a).title = a.title)
    (hcat : ∀ a, (f a).category = a.category)
    (hscr : ∀ a, (f a).scraped_at = a.scraped_at) (a : Article) :
    scoreOf now (f a) = scoreOf now a := by
  unfold scoreOf
  rw [htit, hcat, hscr]

theorem shortlist_map (now : Time) (ps : Nat) (f : Article → Article)
    (hsrc : ∀ a, (f a).source = a.source)
    (hsc : ∀ a, scoreOf now (f a) = scoreOf now a) (rows : List Article) :
    shortlist now ps (rows.map f) = (shortlist now ps rows).map f := by
  unfold shortlist
  rw [groupByKey_map (fun a => a.source) (fun a => a.source) f hsrc]
  suffices h : ∀ (gs : List (String × List Article)) (acc : List Article),
      (gs.map (fun p => (p.1, p.2.map f))).foldl
        (fun acc p => acc ++ (sortDesc (scoreOf now) p.2).take ps) (acc.map f) =
      (gs.foldl (fun acc p => acc ++ (sortDesc (scoreOf now) p.2).take ps)
        acc).map f by
    simpa using h (groupByKey (fun a => a.source) rows) []
  intro gs
  induction gs with
  | nil => intro acc; rfl
  | cons p rest ih =>
      intro acc
      simp only [List.map_cons, List.foldl_cons]
      rw [sortDesc_map (scoreOf now) (scoreOf now) f hsc, ← List.map_take,
          ← List.map_append, ih]

theorem dedupeStage_map (now : Time) (f : Article → Article)
    (htit : ∀ a, (f a).title = a.title)
    (hsc : ∀ a, scoreOf now (f a) = scoreOf now a) (rows : List Article) :
    dedupeStage now (rows.map f) = (dedupeStage now rows).map f := by
  unfold dedupeStage
  rw [sortDesc_map (scoreOf now) (scoreOf now) f hsc, dedupeByTitle_map f htit]

theorem bucketStage_map (now : Time) (f : Article → Article)
    (htit : ∀ a, (f a).title = a.title)
    (hcat : ∀ a, (f a).category = a.category)
    (hsc : ∀ a, scoreOf now (f a) = scoreOf now a) (deduped : List Article) :
    bucketStage now (deduped.map f) =
      (bucketStage now deduped).map (bucketsMap f) := by
  unfold bucketStage
  have h1 : (deduped.map f).map
      (fun a => (a, classify_topic a.title a.category, scoreOf now a)) =
      (deduped.map
        (fun a => (a, classify_topic a.title a.category, scoreOf now a))).map
        (tupMap f) := by
    rw [List.map_map, List.map_map]
    congr 1
    funext a
    simp only [Function.comp_apply, tupMap]
    rw [htit, hcat, hsc]
  rw [h1, groupByKey_map (fun x => x.2.1) (fun x => x.2.1) (tupMap f)
    (fun x => rfl)]
  rw [List.map_map, List.map_map]
  congr 1
  funext p
  simp only [Function.comp_apply, bucketsMap]
  rw [sortDesc_map (fun x => x.2.2) (fun x => x.2.2) (tupMap f) (fun x => rfl)]

theorem backfill_map (fn : Nat) (f : Article → Article)
    (picked : List (Article × String × ℚ))
    (bs : List (String × List (Article × String × ℚ))) :
    backfill fn (picked.map (tupMap f),
        bs.map (fun p => (p.1, p.2.map (tupMap f)))) =
      (backfill fn (picked, bs)).map (tupMap f) := by
  unfold backfill
  simp only [List.length_map]
  by_cases h : picked.length < fn
  · rw [if_pos h, if_pos h]
    have hf : (bs.map (fun p => (p.1, p.2.map (tupMap f)))).foldl
        (fun acc p => acc ++ p.2) [] =
        (bs.foldl (fun acc p => acc ++ p.2) []).map (tupMap f) := by
      simpa using foldl_append_map (tupMap f) bs []
    rw [hf, sortDesc_map (fun x => x.2.2) (fun x => x.2.2) (tupMap f)
      (fun x => rfl), ← List.map_take, ← List.map_append]
  · rw [if_neg h, if_neg h]

theorem select_top_diverse_map (now : Time) (ps fn : Nat)
    (tg : List (String × Nat)) (f : Article → Article)
    (hsrc : ∀ a, (f a).source = a.source)
    (htit : ∀ a, (f a).title = a.title)
    (hcat : ∀ a, (f a).category = a.category)
    (hscr : ∀ a, (f a).scraped_at = a.scraped_at) (rows : List Article) :
    select_top_diverse now (rows.map f) ps fn tg =
      (select_top_diverse now rows ps fn tg).map (tupMap f) := by
  have hsc : ∀ a, scoreOf now (f a) = scoreOf now a :=
    scoreOf_map now f htit hcat hscr
  unfold select_top_diverse
  rw [shortlist_map now ps f hsrc hsc, dedupeStage_map now f htit hsc,
      bucketStage_map now f htit hcat hsc, bucketsMap_def]
  have hq : quotaFill fn tg []
      ((bucketStage now (dedupeStage now (shortlist now ps rows))).map
        (fun p => (p.1, p.2.map (tupMap f)))) =
      ((quotaFill fn tg []
          (bucketStage now (dedupeStage now (shortlist now ps rows)))).1.map
          (tupMap f),
       (quotaFill fn tg []
          (bucketStage now (dedupeStage now (shortlist now ps rows)))).2.map
          (fun p => (p.1, p.2.map (tupMap f)))) := by
    simpa using quotaFill_map (tupMap f) fn tg []
      (bucketStage now (dedupeStage now (shortlist now ps rows)))
  rw [hq, backfill_map, Prod.mk.eta, ← List.map_take]

theorem withRanks_map {β γ : Type} (g : β → γ) (s : Nat) (l : List β) :
    withRanks s (l.map g) = (withRanks s l).map (fun p => (p.1, g p.2)) := by
  induction l generalizing s with
  | nil => rfl
  | cons x t ih =>
      simp only [List.map_cons, withRanks, ih]

theorem applyMarks_proj (marks : List (Int × ℚ × String)) (a : Article) :
    (applyMarks marks a).id = a.id ∧
    (applyMarks marks a).source = a.source ∧
    (applyMarks marks a).title = a.title ∧
    (applyMarks marks a).category = a.category ∧
    (applyMarks marks a).scraped_at = a.scraped_at ∧
    (applyMarks marks a).extraction_status = a.extraction_status ∧
    (applyMarks marks a).content_text = a.content_text := by
  unfold applyMarks
  cases marks.find? (fun m => m.1 == a.id) <;> simp

theorem applyMarks_idem (marks : List (Int × ℚ × String)) (a : Article) :
    applyMarks marks (applyMarks marks a) = applyMarks marks a := by
  cases h : marks.find? (fun m => m.1 == a.id) with
  | none =>
      have h1 : applyMarks marks a = a := by unfold applyMarks; rw [h]
      rw [h1, h1]
  | some m =>
      have h1 : applyMarks marks a =
          { a with importance_score := some m.2.1,
                   reason_selected := some m.2.2 } := by
        unfold applyMarks; rw [h]
      rw [h1]
      unfold applyMarks
      dsimp only
      rw [h]

theorem rowPred_map (cutoff : Time) (marks : List (Int × ℚ × String))
    (a : Article) :
    rowPred cutoff (applyMarks marks a) = rowPred cutoff a := by
  obtain ⟨-, -, -, -, hscr, hst, hct⟩ := applyMarks_proj marks a
  unfold rowPred
  rw [hscr, hst, hct]

theorem selectedOf_map (now : Time) (hours : ℚ) (ps fn : Nat)
    (tg : List (String × Nat)) (marks : List (Int × ℚ × String))
    (pool : List Article) :
    selectedOf now hours ps fn tg (pool.map (applyMarks marks)) =
      (selectedOf now hours ps fn tg pool).map (tupMap (applyMarks marks)) := by
  unfold selectedOf
  have hfil : (pool.map (applyMarks marks)).filter
      (rowPred (qsub now (qmul hours 3600))) =
      (pool.filter (rowPred (qsub now (qmul hours 3600)))).map
        (applyMarks marks) := by
    induction pool with
    | nil => rfl
    | cons a t ih =>
        simp only [List.map_cons, List.filter_cons,
          rowPred_map (qsub now (qmul hours 3600)) marks a]
        by_cases h : rowPred (qsub now (qmul hours 3600)) a = true
        · simp [h, ih]
        · simp [h, ih]
  rw [hfil]
  exact select_top_diverse_map now ps fn tg (applyMarks marks)
    (fun a => (applyMarks_proj marks a).2.1)
    (fun a => (applyMarks_proj marks a).2.2.1)
    (fun a => (applyMarks_proj marks a).2.2.2.1)
    (fun a => (applyMarks_proj marks a).2.2.2.2.1)
    (pool.filter (rowPred (qsub now (qmul hours 3600))))

theorem marksOf_map (marks : List (Int × ℚ × String))
    (picked : List (Article × String × ℚ)) :
    marksOf (picked.map (tupMap (applyMarks marks))) = marksOf picked := by
  unfold marksOf
  rw [withRanks_map, List.map_map]
  congr 1
  funext rp
  simp only [Function.comp_apply, tupMap]
  rw [(applyMarks_proj marks rp.2.1).1]

/-- C9: running the selection pass a second time over the pool the first
pass produced yields the identical ordered id list and the identical
persisted scores and reason strings: the selection reads none of the
fields it writes. -/
theorem selection_pass_idempotent (now : Time) (hours : ℚ) (ps fn : Nat)
    (tg : List (String × Nat)) (pool : List Article) :
    pick_and_mark now hours ps fn tg (pick_and_mark now hours ps fn tg pool).2 =
      pick_and_mark now hours ps fn tg pool := by
  unfold pick_and_mark
  rw [selectedOf_map, marksOf_map]
  dsimp only
  rw [Prod.mk.injEq]
  refine ⟨?_, ?_⟩
  · rw [List.map_map]
    congr 1
    funext x
    simp only [Function.comp_apply, tupMap]
    exact (applyMarks_proj
      (marksOf (selectedOf now hours ps fn tg pool)) x.1).1
  · rw [List.map_map]
    congr 1
    funext a
    simp only [Function.comp_apply]
    exact applyMarks_idem (marksOf (selectedOf now hours ps fn tg pool)) a

theorem sortDesc_mem {α : Type} (key : α → ℚ) (l : List α) (x : α) :
    x ∈ sortDesc key l ↔ x ∈ l :=
  (List.perm_insertionSort _ l).mem_iff

theorem dedupeByTitle_norm_ne (seen : List String) (l : List Article) :
    ∀ a ∈ dedupeByTitle seen l, _norm a.title ≠ "" := by
  induction l generalizing seen with
  | nil => intro a ha; exact absurd ha (List.not_mem_nil a)
  | cons b t ih =>
      intro a ha
      simp only [dedupeByTitle] at ha
      by_cases h : ((_norm b.title != "") && !(seen.contains (_norm b.title))) = true
      · rw [if_pos h] at ha
        rcases List.mem_cons.1 ha with rfl | ha2
        · rw [Bool.and_eq_true] at h
          intro he
          rw [he] at h
          simp at h
        · exact ih (_norm b.title :: seen) a ha2
      · rw [if_neg h] at ha
        exact ih seen a ha

theorem addToGroup_all {β : Type} (P : β → Prop) (k : String) (x : β)
    (acc : List (String × List β)) (hx : P x)
    (hacc : ∀ p ∈ acc, ∀ y ∈ p.2, P y) :
    ∀ p ∈ addToGroup k x acc, ∀ y ∈ p.2, P y := by
  induction acc with
  | nil =>
      intro p hp y hy
      simp only [addToGroup, List.mem_singleton] at hp
      subst hp
      simp only [List.mem_singleton] at hy
      subst hy
      exact hx
  | cons q rest ih =>
      obtain ⟨k2, items⟩ := q
      intro p hp y hy
      simp only [addToGroup] at hp
      by_cases h : (k2 == k) = true
      · rw [if_pos h] at hp
        rcases List.mem_cons.1 hp with rfl | hp2
        · simp only at hy
          rcases List.mem_append.1 hy with hy1 | hy2
          · exact hacc (k2, items) (List.mem_cons_self _ _) y hy1
          · rw [List.mem_singleton.1 hy2]
            exact hx
        · exact hacc p (List.mem_cons_of_mem _ hp2) y hy
      · rw [if_neg h] at hp
        rcases List.mem_cons.1 hp with rfl | hp2
        · exact hacc (k2, items) (List.mem_cons_self _ _) y hy
        · exact ih (fun q2 hq2 => hacc q2 (List.mem_cons_of_mem _ hq2)) p hp2 y hy

theorem groupByKey_all {β : Type} (P : β → Prop) (keyOf : β → String)
    (l : List β) (hl : ∀ x ∈ l, P x) :
    ∀ p ∈ groupByKey keyOf l, ∀ y ∈ p.2, P y := by
  suffices h : ∀ (l2 : List β) (acc : List (String × List β)),
      (∀ x ∈ l2, P x) → (∀ p ∈ acc, ∀ y ∈ p.2, P y) →
      ∀ p ∈ l2.foldl (fun acc x => addToGroup (keyOf x) x acc) acc,
        ∀ y ∈ p.2, P y by
    exact h l [] hl (fun p hp => absurd hp (List.not_mem_nil p))
  intro l2
  induction l2 with
  | nil => intro acc _ hacc; exact hacc
  | cons x t ih =>
      intro acc hl2 hacc
      simp only [List.foldl_cons]
      exact ih (addToGroup (keyOf x) x acc)
        (fun z hz => hl2 z (List.mem_cons_of_mem _ hz))
        (addToGroup_all P (keyOf x) x acc (hl2 x (List.mem_cons_self _ _)) hacc)

theorem bucketStage_all (now : Time) (d : List Article)
    (hd : ∀ a ∈ d, _norm a.title ≠ "") :
    ∀ p ∈ bucketStage now d, ∀ y ∈ p.2, _norm y.1.title ≠ "" := by
  intro p hp y hy
  unfold bucketStage at hp
  rcases List.mem_map.1 hp with ⟨q, hq, rfl⟩
  simp only at hy
  have hy2 : y ∈ q.2 := (sortDesc_mem _ _ _).1 hy
  have hall : ∀ x ∈ d.map (fun a =>
      (a, classify_topic a.title a.category, scoreOf now a)),
      _norm x.1.title ≠ "" := by
    intro x hx
    rcases List.mem_map.1 hx with ⟨a, ha, rfl⟩
    exact hd a ha
  exact groupByKey_all _ (fun x => x.2.1) _ hall q hq y hy2

theorem popBucket_all {β : Type} (P : β → Prop) (topic : String)
    (bs : List (String × List β)) (x : β) (bs2 : List (String × List β))
    (hall : ∀ p ∈ bs, ∀ y ∈ p.2, P y)
    (h : popBucket topic bs = some (x, bs2)) :
    P x ∧ ∀ p ∈ bs2, ∀ y ∈ p.2, P y := by
  induction bs generalizing bs2 with
  | nil => exact absurd h (by simp [popBucket])
  | cons q rest ih =>
      obtain ⟨k, items⟩ := q
      simp only [popBucket] at h
      by_cases hk : (k == topic) = true
      · rw [if_pos hk] at h
        cases items with
        | nil => exact absurd h (by simp)
        | cons z zs =>
            rw [Option.some.injEq, Prod.mk.injEq] at h
            obtain ⟨rfl, rfl⟩ := h
            refine ⟨hall (k, z :: zs) (List.mem_cons_self _ _) z
              (List.mem_cons_self _ _), ?_⟩
            intro p hp y hy
            rcases List.mem_cons.1 hp with rfl | hp2
            · exact hall (k, z :: zs) (List.mem_cons_self _ _) y
                (List.mem_cons_of_mem _ hy)
            · exact hall p (List.mem_cons_of_mem _ hp2) y hy
      · rw [if_neg hk] at h
        cases hpb : popBucket topic rest with
        | none => rw [hpb] at h; exact absurd h (by simp)
        | some pr =>
            obtain ⟨x2, rest2⟩ := pr
            rw [hpb, Option.some.injEq, Prod.mk.injEq] at h
            obtain ⟨rfl, rfl⟩ := h
            have hrest := ih rest2 (fun p hp => hall p (List.mem_cons_of_mem _ hp))
              hpb
            refine ⟨hrest.1, ?_⟩
            intro p hp y hy
            rcases List.mem_cons.1 hp with rfl | hp2
            · exact hall (k, items) (List.mem_cons_self _ _) y hy
            · exact hrest.2 p hp2 y hy

theorem fillTopic_all {β : Type} (P : β → Prop) (fn : Nat) (topic : String)
    (m : Nat) (picked : List β) (bs : List (String × List β))
    (hp : ∀ y ∈ picked, P y) (hb : ∀ p ∈ bs, ∀ y ∈ p.2, P y) :
    (∀ y ∈ (fillTopic fn topic m picked bs).1, P y) ∧
    (∀ p ∈ (fillTopic fn topic m picked bs).2, ∀ y ∈ p.2, P y) := by
  induction m generalizing picked bs with
  | zero => exact ⟨hp, hb⟩
  | succ m ih =>
      simp only [fillTopic]
      by_cases h : fn ≤ picked.length
      · rw [if_pos h]; exact ⟨hp, hb⟩
      · rw [if_neg h]
        cases hpb : popBucket topic bs with
        | none => exact ih picked bs hp hb
        | some pr =>
            obtain ⟨x, bs2⟩ := pr
            have hx := popBucket_all P topic bs x bs2 hb hpb
            refine ih (picked ++ [x]) bs2 ?_ hx.2
            intro y hy
            rcases List.mem_append.1 hy with hy1 | hy2
            · exact hp y hy1
            · rw [List.mem_singleton.1 hy2]; exact hx.1

theorem quotaFill_all {β : Type} (P : β → Prop) (fn : Nat)
    (tg : List (String × Nat)) (picked : List β)
    (bs : List (String × List β))
    (hp : ∀ y ∈ picked, P y) (hb : ∀ p ∈ bs, ∀ y ∈ p.2, P y) :
    (∀ y ∈ (quotaFill fn tg picked bs).1, P y) ∧
    (∀ p ∈ (quotaFill fn tg picked bs).2, ∀ y ∈ p.2, P y) := by
  induction tg generalizing picked bs with
  | nil => exact ⟨hp, hb⟩
  | cons tt rest ih =>
      obtain ⟨topic, target⟩ := tt
      simp only [quotaFill]
      have hf := fillTopic_all P fn topic target picked bs hp hb
      exact ih (fillTopic fn topic target picked bs).1
        (fillTopic fn topic target picked bs).2 hf.1 hf.2

theorem foldl_append_all {β : Type} (P : β → Prop)
    (bs : List (String × List β)) (acc : List β)
    (hacc : ∀ y ∈ acc, P y) (hb : ∀ p ∈ bs, ∀ y ∈ p.2, P y) :
    ∀ y ∈ bs.foldl (fun acc p => acc ++ p.2) acc, P y := by
  induction bs generalizing acc with
  | nil => exact hacc
  | cons p rest ih =>
      simp only [List.foldl_cons]
      refine ih (acc ++ p.2) ?_ (fun q hq => hb q (List.mem_cons_of_mem _ hq))
      intro y hy
      rcases List.mem_append.1 hy with hy1 | hy2
      · exact hacc y hy1
      · exact hb p (List.mem_cons_self _ _) y hy2

theorem backfill_all (P : Article × String × ℚ → Prop) (fn : Nat)
    (pb : List (Article × String × ℚ) ×
      List (String × List (Article × String × ℚ)))
    (hp : ∀ y ∈ pb.1, P y) (hb : ∀ p ∈ pb.2, ∀ y ∈ p.2, P y) :
    ∀ y ∈ backfill fn pb, P y := by
  unfold backfill
  by_cases h : pb.1.length < fn
  · rw [if_pos h]
    intro y hy
    rcases List.mem_append.1 hy with hy1 | hy2
    · exact hp y hy1
    · have hy3 := List.mem_of_mem_take hy2
      have hy4 := (sortDesc_mem _ _ _).1 hy3
      exact foldl_append_all P pb.2 []
        (fun z hz => absurd hz (List.not_mem_nil z)) hb y hy4
  · rw [if_neg h]
    exact hp

/-- C10: an article whose title normalises to the empty string (no
ASCII alphanumeric characters) is dropped at the dedupe stage, so no
output tuple of the selection engine carries such a title, whatever the
pool, the quotas, or the scores. -/
theorem empty_norm_title_never_selected (now : Time) (ps fn : Nat)
    (tg : List (String × Nat)) (rows : List Article) :
    ∀ x ∈ select_top_diverse now rows ps fn tg, _norm x.1.title ≠ "" := by
  intro x hx
  unfold select_top_diverse at hx
  have hx2 := List.mem_of_mem_take hx
  have hded : ∀ a ∈ dedupeStage now (shortlist now ps rows),
      _norm a.title ≠ "" := by
    unfold dedupeStage
    exact dedupeByTitle_norm_ne [] _
  have hbuck := bucketStage_all now (dedupeStage now (shortlist now ps rows)) hded
  have hquota := quotaFill_all (fun y => _norm y.1.title ≠ "") fn tg []
    (bucketStage now (dedupeStage now (shortlist now ps rows)))
    (fun y hy => absurd hy (List.not_mem_nil y)) hbuck
  exact backfill_all (fun y => _norm y.1.title ≠ "") fn _ hquota.1 hquota.2 x hx2

/-- C10 witness: in a concrete pool holding a normal article and an
article titled by punctuation only, the selected tuple satisfies the
nonempty normalised title property. -/
theorem empty_norm_title_never_selected_witness :
    _norm c10keep.title ≠ "" :=
  empty_norm_title_never_selected now7 5 3 [("tech", 2)] c10pool
    (c10keep, "tech", 10) (by decide)

end NewsCore
